import Mathlib

/-!
Verification development for the Flow CLI project-resolution and
argument-coercion core.

The Go sources embedded here:
* `pkg/flowkit/arguments.go` — `processValue`, `GetAuthorizerCount`,
  `ParseArgumentsWithoutType`.
* the contracts configuration model (collections, JSON transform, lookup) —
  the implementation file is not part of the sample, so those definitions
  are modelled from the specification (each such definition is marked
  `Modelled from the spec:` in its doc comment).

External collaborators (the Cadence parser, type checker and literal
parser) are embedded as explicit inputs: a parsed `Program` value stands
for the output of `cmd.PrepareProgram`, a conversion function stands for
`checker.ConvertType`, and a function of type
`String → SemaType → Except String V` stands for `runtime.ParseLiteral`
(the `String` in the error carries the collaborator's raw error text).
-/

namespace Flowkit

/-- Model of Go `strings.Contains` on the character lists of the two
strings: does `sub` occur as a contiguous substring? -/
def containsSubAux (sub : List Char) : List Char → Bool
  | [] => List.isPrefixOf sub []
  | c :: t => List.isPrefixOf sub (c :: t) || containsSubAux sub t

/-- Go `strings.Contains s sub`. -/
def strContains (s sub : String) : Bool :=
  containsSubAux sub.data s.data

/-- Go `strings.HasPrefix s p` (written over the character lists). -/
def strStartsWith (s p : String) : Bool :=
  List.isPrefixOf p.data s.data

/-- The checker's resolved (`sema`) types, as far as the coercion engine
inspects them: `*sema.OptionalType`, `*sema.SimpleType` (whose identity
the engine only compares against `sema.StringType`, here the simple type
named `"String"`), `*sema.AddressType`, and every other concrete type. -/
inductive SemaType where
  | optional (t : SemaType)
  | simple (name : String)
  | address
  | composite (name : String)
deriving DecidableEq, Repr

/-- Model of `sema.Type.QualifiedString`, used only to build the
`ArgumentTypeMismatch` message. -/
def SemaType.qualifiedString : SemaType → String
  | .optional t => t.qualifiedString ++ "?"
  | .simple n => n
  | .address => "Address"
  | .composite n => n

/-- The unwrapping loop of `ParseArgumentsWithoutType`:
`case *sema.OptionalType: semaType = v.Type; continue` — repeatedly
strip optionals until a non-optional leaf type remains. -/
def resolveLeaf : SemaType → SemaType
  | .optional t => resolveLeaf t
  | .simple n => .simple n
  | .address => .address
  | .composite n => .composite n

/-- The `switch` body of `ParseArgumentsWithoutType` applied at the
resolved leaf type: quote-wrap non-empty unquoted strings for
`sema.StringType`, prepend `0x` for `*sema.AddressType` when the string
does not contain `0x`, leave every other type's string untouched. -/
def rewriteArg (leaf : SemaType) (s : String) : String :=
  match leaf with
  | .simple n =>
      if n = "String" then
        if s.length > 0 && !(strStartsWith s "\"") then "\"" ++ s ++ "\"" else s
      else s
  | .address =>
      if !(strContains s "0x") then "0x" ++ s else s
  | _ => s

/-- An `ast.Parameter`: identifier plus AST type annotation. The AST
type language `τ` is opaque to the engine (only the checker reads it). -/
structure Parameter (τ : Type) where
  identifier : String
  typeAnn : τ

/-- An `ast.ParameterList`. Its `Parameters` field is a Go slice and may
be `nil` (`none`) even when the list node itself is present. -/
structure ParameterList (τ : Type) where
  parameters : Option (List (Parameter τ))

/-- An `ast.FunctionDeclaration`, restricted to the field the engine
reads: its (possibly `nil`) parameter list. -/
structure FunctionDeclaration (τ : Type) where
  parameterList : Option (ParameterList τ)

/-- An `ast.SpecialFunctionDeclaration` (initializer / `prepare`). -/
structure SpecialFunctionDeclaration (τ : Type) where
  functionDeclaration : FunctionDeclaration τ

/-- An `ast.TransactionDeclaration`: top-level parameter list plus the
optional `prepare` block. -/
structure TransactionDeclaration (τ : Type) where
  parameterList : Option (ParameterList τ)
  prepare : Option (SpecialFunctionDeclaration τ)

/-- A contract declaration, restricted to `Members.Initializers()`. -/
structure ContractDeclaration (τ : Type) where
  initializers : List (SpecialFunctionDeclaration τ)

/-- A parsed program, as produced by the external parser
(`cmd.PrepareProgram`): the fields of `*ast.Program` that
`ParseArgumentsWithoutType` and `GetAuthorizerCount` read.
`functionEntryPointDeclaration` is `sema.FunctionEntryPointDeclaration`,
`soleContractDeclaration` is `program.SoleContractDeclaration()`. -/
structure Program (τ : Type) where
  functionEntryPointDeclaration : Option (FunctionDeclaration τ)
  transactionDeclarations : List (TransactionDeclaration τ)
  soleContractDeclaration : Option (ContractDeclaration τ)

/-- `GetAuthorizerCount` from `arguments.go`: the length of the single
transaction declaration's `prepare` parameter list, and `0` in every
other case (`len` of a `nil` Go slice is `0`). -/
def GetAuthorizerCount {τ : Type} (p : Program τ) : Nat :=
  match p.transactionDeclarations with
  | [td] =>
      match td.prepare with
      | some sfd =>
          match sfd.functionDeclaration.parameterList with
          | some plist => (plist.parameters.getD []).length
          | none => 0
      | none => 0
  | _ => 0

/-- The schema-selection prologue of `ParseArgumentsWithoutType`: the Go
variable `parameterList` (a possibly-`nil` slice, hence `Option`) after
the three successive `if` blocks — function entry point, then single
transaction declaration, then sole contract declaration with exactly one
initializer; each later candidate overwrites the earlier one whenever
its own `ParameterList` pointer is non-`nil`. -/
def selectParameterList {τ : Type} (p : Program τ) : Option (List (Parameter τ)) :=
  let pl0 : Option (List (Parameter τ)) := none
  let pl1 :=
    match p.functionEntryPointDeclaration with
    | some fd =>
        match fd.parameterList with
        | some l => l.parameters
        | none => pl0
    | none => pl0
  let pl2 :=
    match p.transactionDeclarations with
    | [td] =>
        match td.parameterList with
        | some l => l.parameters
        | none => pl1
    | _ => pl1
  match p.soleContractDeclaration with
  | some cd =>
      match cd.initializers with
      | [ini] =>
          match ini.functionDeclaration.parameterList with
          | some l => l.parameters
          | none => pl2
      | _ => pl2
  | none => pl2

/-- The engine's error values. `countMismatch got want` is the Go error
`"argument count is %d, expected %d"` with `got = len(args)` and
`want = len(parameterList)`; `typeMismatch id ty` is
`"argument `id` is not expected type `ty`"`. -/
inductive ArgError where
  | countMismatch (got want : Nat)
  | typeMismatch (identifier expectedType : String)
deriving DecidableEq, Repr

/-- One iteration of the argument loop of `ParseArgumentsWithoutType`:
resolve the leaf type through the checker, rewrite the raw string, call
the external literal parser, and replace any parser failure by
`typeMismatch` built from the parameter identifier and the leaf type's
qualified string (the parser's own error text is dropped). -/
def coerceOneE {τ V : Type} (convertType : τ → SemaType)
    (parseLiteral : String → SemaType → Except String V)
    (p : Parameter τ) (s : String) : Except ArgError V :=
  let leaf := resolveLeaf (convertType p.typeAnn)
  match parseLiteral (rewriteArg leaf s) leaf with
  | .error _ => .error (.typeMismatch p.identifier leaf.qualifiedString)
  | .ok v => .ok v

/-- The `for index, argumentString := range args` loop: coerce each
(parameter, raw string) pair in order, abort on the first failure,
append each success to the result. -/
def coerceLoop {τ V : Type} (convertType : τ → SemaType)
    (parseLiteral : String → SemaType → Except String V) :
    List (Parameter τ) → List String → Except ArgError (List V)
  | p :: ps, a :: as =>
      match coerceOneE convertType parseLiteral p a with
      | .error e => .error e
      | .ok v =>
          match coerceLoop convertType parseLiteral ps as with
          | .error e => .error e
          | .ok vs => .ok (v :: vs)
  | _, _ => .ok []

/-- `ParseArgumentsWithoutType` from `arguments.go`, with the parsing,
checking and literal-parsing collaborators passed in explicitly: select
the parameter schema; if the selected slice is `nil` return the empty
result with no error; otherwise check arity and run the coercion loop. -/
def ParseArgumentsWithoutType {τ V : Type} (program : Program τ)
    (convertType : τ → SemaType)
    (parseLiteral : String → SemaType → Except String V)
    (args : List String) : Except ArgError (List V) :=
  match selectParameterList program with
  | none => .ok []
  | some parameterList =>
      if parameterList.length ≠ args.length then
        .error (.countMismatch args.length parameterList.length)
      else
        coerceLoop convertType parseLiteral parameterList args

/-- The Go `interface{}` values `processValue` can return. -/
inductive GoValue where
  | str (s : String)
  | bool (b : Bool)
deriving DecidableEq, Repr

/-- Go `strconv.ParseBool`: the accepted literals, paired with the
`(value, error)` result — on any other input it returns
`(false, some error)`. -/
def strconvParseBool (s : String) : Bool × Option String :=
  if s = "1" ∨ s = "t" ∨ s = "T" ∨ s = "TRUE" ∨ s = "true" ∨ s = "True" then
    (true, none)
  else if s = "0" ∨ s = "f" ∨ s = "F" ∨ s = "FALSE" ∨ s = "false" ∨ s = "False" then
    (false, none)
  else
    (false, some "ParseBool: syntax error")

/-- `processValue` from `arguments.go`: prepend `0x` to addresses that
lack it, convert booleans with `strconv.ParseBool` while discarding the
error (`converted, _ := strconv.ParseBool(argValue)`), and pass every
other value through. The Go function has no error return. -/
def processValue (argType argValue : String) : GoValue :=
  if argType = "Address" && !(strContains argValue "0x") then
    .str ("0x" ++ argValue)
  else if argType = "Bool" then
    .bool (strconvParseBool argValue).1
  else
    .str argValue

/-- Modelled from the spec: a Contract record of the Entity Collections
(`{name, location, network, alias}`; an absent alias is the empty
string, as in the Go struct the tests populate). The implementation file
for the collections is not part of the sample. -/
structure Contract where
  Name : String
  Location : String
  Network : String
  Alias : String
deriving DecidableEq, Repr

/-- Modelled from the spec: the project's implicit default network used
when a contract declaration names no network (the sample's tests use the
`emulator` network in this role). -/
def defaultNetwork : String := "emulator"

/-- Modelled from the spec: one entry of the persisted `contracts` JSON
mapping — either a bare path string or a `{source, aliases}` object. -/
inductive JsonContract where
  | simple (location : String)
  | advanced (source : String) (aliases : List (String × String))
deriving DecidableEq, Repr

/-- Modelled from the spec: decoding of a single named `contracts`
entry. A bare string yields one record on the default network with no
alias; an object yields one record per `aliases` entry sharing `source`
as location, or a single default-network record when `aliases` is
empty. -/
def decodeEntry (n : String) : JsonContract → List Contract
  | .simple loc => [⟨n, loc, defaultNetwork, ""⟩]
  | .advanced src aliases =>
      match aliases with
      | [] => [⟨n, src, defaultNetwork, ""⟩]
      | _ => aliases.map (fun a => ⟨n, src, a.1, a.2⟩)

/-- Modelled from the spec: `Decode` over the whole persisted
`contracts` mapping, in entry order. -/
def decode : List (String × JsonContract) → List Contract
  | [] => []
  | (n, jc) :: t => decodeEntry n jc ++ decode t

/-- Modelled from the spec: the save-time error raised when two records
of one contract name disagree on the source location. -/
inductive EncodeError where
  | inconsistentContractSource
deriving DecidableEq, Repr

/-- Modelled from the spec: the lookup error of the Config Resolver. -/
inductive LookupError where
  | notFound
deriving DecidableEq, Repr

/-- Modelled from the spec: the `aliases` object produced while encoding
a name group — `network: alias` for each record whose alias is
non-empty, in record order. -/
def aliasEntries (g : List Contract) : List (String × String) :=
  g.filterMap (fun c => if c.Alias = "" then none else some (c.Network, c.Alias))

/-- Modelled from the spec: `Encode` of one name group. A group with
exactly one record on the default network with empty alias becomes a
bare string; otherwise the records must share one location (else
`InconsistentContractSource`) and become a `{source, aliases}` object. -/
def encodeGroup (n : String) (g : List Contract) : Except EncodeError (String × JsonContract) :=
  match g with
  | [] => .ok (n, .advanced "" [])
  | r :: rest =>
      if rest.isEmpty && (r.Network = defaultNetwork) && (r.Alias = "") then
        .ok (n, .simple r.Location)
      else if rest.all (fun c => c.Location = r.Location) then
        .ok (n, .advanced r.Location (aliasEntries (r :: rest)))
      else
        .error .inconsistentContractSource

/-- Modelled from the spec: `Encode` groups records by name (in order of
first occurrence) and encodes each group; the name list drives the
recursion, and names whose records were already consumed are skipped. -/
def encodeNames : List String → List Contract → Except EncodeError (List (String × JsonContract))
  | [], _ => .ok []
  | n :: ns, C =>
      match C.filter (fun c => c.Name = n) with
      | [] => encodeNames ns C
      | r :: rest =>
          match encodeGroup n (r :: rest) with
          | .error e => .error e
          | .ok entry =>
              match encodeNames ns (C.filter (fun c => !(c.Name = n))) with
              | .error e => .error e
              | .ok raws => .ok (entry :: raws)

/-- Modelled from the spec: `Encode` over a whole contract collection. -/
def encode (C : List Contract) : Except EncodeError (List (String × JsonContract)) :=
  encodeNames (C.map (fun c => c.Name)) C

/-- Modelled from the spec: `ByNameAndNetwork` of the Config Resolver —
exact match on both fields, `NotFound` when absent. -/
def byNameAndNetwork (C : List Contract) (n nw : String) : Except LookupError Contract :=
  match C.find? (fun c => c.Name = n && c.Network = nw) with
  | some c => .ok c
  | none => .error .notFound

/-- C8: `GetAuthorizerCount` returns the length of the prepare block's
parameter list when the program has exactly one transaction declaration
whose prepare block carries a parameter list, and `0` in every other
case (no transaction declaration, several of them, no prepare block, or
no parameter list on it). -/
theorem c8_authorizer_count {τ : Type} (p : Program τ) :
    (∀ td sfd plist, p.transactionDeclarations = [td] → td.prepare = some sfd →
      sfd.functionDeclaration.parameterList = some plist →
      GetAuthorizerCount p = (plist.parameters.getD []).length)
    ∧ ((¬ ∃ td sfd plist, p.transactionDeclarations = [td] ∧ td.prepare = some sfd ∧
        sfd.functionDeclaration.parameterList = some plist) →
      GetAuthorizerCount p = 0) := by
  constructor
  · intro td sfd plist h1 h2 h3
    simp [GetAuthorizerCount, h1, h2, h3]
  · intro hne
    rcases htd : p.transactionDeclarations with _ | ⟨td, _ | ⟨td2, rest⟩⟩
    · simp [GetAuthorizerCount, htd]
    · rcases hp : td.prepare with _ | sfd
      · simp [GetAuthorizerCount, htd, hp]
      · rcases hpl : sfd.functionDeclaration.parameterList with _ | plist
        · simp [GetAuthorizerCount, htd, hp, hpl]
        · exact absurd ⟨td, sfd, plist, htd, hp, hpl⟩ hne
    · simp [GetAuthorizerCount, htd]

/-- Witness for C8: a transaction whose prepare block declares two
authorizers yields `2`; a program with no transaction yields `0`. -/
theorem c8_authorizer_count_witness :
    GetAuthorizerCount
      (⟨none, [⟨none, some ⟨⟨some ⟨some [⟨"a", ()⟩, ⟨"b", ()⟩]⟩⟩⟩⟩], none⟩ : Program Unit) = 2
    ∧ GetAuthorizerCount (⟨none, [], none⟩ : Program Unit) = 0 := by
  constructor
  · exact (c8_authorizer_count _).1 ⟨none, some ⟨⟨some ⟨some [⟨"a", ()⟩, ⟨"b", ()⟩]⟩⟩⟩⟩
      ⟨⟨some ⟨some [⟨"a", ()⟩, ⟨"b", ()⟩]⟩⟩⟩ ⟨some [⟨"a", ()⟩, ⟨"b", ()⟩]⟩ rfl rfl rfl
  · refine (c8_authorizer_count _).2 ?_
    rintro ⟨td, sfd, plist, h, -, -⟩
    simp at h

/-- C10: `processValue` with `argType = "Bool"` on a string that
`strconv.ParseBool` rejects returns the Go boolean `false` and signals
no error — the parse error is discarded (`converted, _ :=
strconv.ParseBool(argValue)`), and the function has no error return at
all, so malformed boolean arguments are silently coerced to `false`. -/
theorem c10_bool_error_discarded (s : String)
    (h : (strconvParseBool s).2.isSome) :
    processValue "Bool" s = GoValue.bool false := by
  have hval : (strconvParseBool s).1 = false := by
    unfold strconvParseBool at h ⊢
    split_ifs at h ⊢ <;> simp_all
  simp [processValue, hval]

/-- Witness for C10: `"yes"` is not a valid boolean literal, and
`processValue "Bool" "yes"` is `false` with no error. -/
theorem c10_bool_error_discarded_witness :
    (strconvParseBool "yes").2.isSome ∧ processValue "Bool" "yes" = GoValue.bool false :=
  ⟨by decide, c10_bool_error_discarded "yes" (by decide)⟩

/-- C5: for a parameter whose resolved leaf type is the address type,
the engine hands the literal parser the raw string with `0x` prepended
exactly when the raw string does not contain the substring `0x`
anywhere, and the raw string unchanged otherwise; the parser is invoked
at the leaf address type, and the quantification over `parseLiteral`
shows this is all the engine does with the string. -/
theorem c5_address_rewrite {τ V : Type} (convertType : τ → SemaType)
    (parseLiteral : String → SemaType → Except String V) (p : Parameter τ)
    (h : resolveLeaf (convertType p.typeAnn) = SemaType.address) (s : String) :
    coerceOneE convertType parseLiteral p s =
      match parseLiteral (if strContains s "0x" then s else "0x" ++ s) SemaType.address with
      | .error _ => .error (.typeMismatch p.identifier "Address")
      | .ok v => .ok v := by
  by_cases hc : strContains s "0x" <;>
    simp [coerceOneE, h, rewriteArg, hc, SemaType.qualifiedString]

/-- Witness for C5: against an address-typed parameter, input `"1234"`
reaches the parser as `"0x1234"` and input `"0x1234"` is passed through
unchanged (the parser here records the string and type it receives). -/
theorem c5_address_rewrite_witness :
    resolveLeaf ((fun t : SemaType => t) (Parameter.typeAnn ⟨"a", SemaType.address⟩)) =
        SemaType.address
    ∧ coerceOneE (fun t : SemaType => t) (fun str ty => Except.ok (str, ty))
        ⟨"a", SemaType.address⟩ "1234" = Except.ok ("0x1234", SemaType.address)
    ∧ coerceOneE (fun t : SemaType => t) (fun str ty => Except.ok (str, ty))
        ⟨"a", SemaType.address⟩ "0x1234" = Except.ok ("0x1234", SemaType.address) := by
  refine ⟨rfl, ?_, ?_⟩
  · rw [c5_address_rewrite (fun t : SemaType => t) (fun str ty => Except.ok (str, ty))
        ⟨"a", SemaType.address⟩ rfl "1234"]
    rfl
  · rw [c5_address_rewrite (fun t : SemaType => t) (fun str ty => Except.ok (str, ty))
        ⟨"a", SemaType.address⟩ rfl "0x1234"]
    rfl

/-- C6: for a parameter whose resolved leaf type is the string type, the
engine wraps the raw string in double quotes before handing it to the
literal parser exactly when it is non-empty and does not already start
with a double-quote character; empty or already-quoted strings pass
through unchanged. -/
theorem c6_string_rewrite {τ V : Type} (convertType : τ → SemaType)
    (parseLiteral : String → SemaType → Except String V) (p : Parameter τ)
    (h : resolveLeaf (convertType p.typeAnn) = SemaType.simple "String") (s : String) :
    coerceOneE convertType parseLiteral p s =
      match parseLiteral
          (if s.length > 0 && !(strStartsWith s "\"") then "\"" ++ s ++ "\"" else s)
          (SemaType.simple "String") with
      | .error _ => .error (.typeMismatch p.identifier "String")
      | .ok v => .ok v := by
  by_cases hc : (s.length > 0 && !(strStartsWith s "\"")) = true <;>
    simp [coerceOneE, h, rewriteArg, hc, SemaType.qualifiedString]

/-- Witness for C6: against a string-typed parameter, input `hello`
reaches the parser as the literal `"hello"`, an already-quoted input is
passed through unchanged, and the empty string is passed unchanged. -/
theorem c6_string_rewrite_witness :
    resolveLeaf ((fun t : SemaType => t) (Parameter.typeAnn ⟨"s", SemaType.simple "String"⟩)) =
        SemaType.simple "String"
    ∧ coerceOneE (fun t : SemaType => t) (fun str ty => Except.ok (str, ty))
        ⟨"s", SemaType.simple "String"⟩ "hello" =
        Except.ok ("\"hello\"", SemaType.simple "String")
    ∧ coerceOneE (fun t : SemaType => t) (fun str ty => Except.ok (str, ty))
        ⟨"s", SemaType.simple "String"⟩ "\"hello\"" =
        Except.ok ("\"hello\"", SemaType.simple "String")
    ∧ coerceOneE (fun t : SemaType => t) (fun str ty => Except.ok (str, ty))
        ⟨"s", SemaType.simple "String"⟩ "" =
        Except.ok ("", SemaType.simple "String") := by
  refine ⟨rfl, ?_, ?_, ?_⟩
  · rw [c6_string_rewrite (fun t : SemaType => t) (fun str ty => Except.ok (str, ty))
        ⟨"s", SemaType.simple "String"⟩ rfl "hello"]
    rfl
  · rw [c6_string_rewrite (fun t : SemaType => t) (fun str ty => Except.ok (str, ty))
        ⟨"s", SemaType.simple "String"⟩ rfl "\"hello\""]
    rfl
  · rw [c6_string_rewrite (fun t : SemaType => t) (fun str ty => Except.ok (str, ty))
        ⟨"s", SemaType.simple "String"⟩ rfl ""]
    rfl

/-- C9: schema selection is last-wins. A sole contract declaration with
exactly one initializer carrying a parameter list overrides everything
else; failing that, a single transaction declaration carrying a
parameter list overrides the function entry-point declaration,
whichever entry points the file also contains. -/
theorem c9_selection_last_wins {τ : Type} (p : Program τ) :
    (∀ cd ini l, p.soleContractDeclaration = some cd → cd.initializers = [ini] →
      ini.functionDeclaration.parameterList = some l →
      selectParameterList p = l.parameters)
    ∧ (p.soleContractDeclaration = none →
      ∀ td l, p.transactionDeclarations = [td] → td.parameterList = some l →
      selectParameterList p = l.parameters) := by
  constructor
  · intro cd ini l h1 h2 h3
    simp [selectParameterList, h1, h2, h3]
  · intro hcd td l h1 h2
    simp [selectParameterList, hcd, h1, h2]

/-- Witness for C9: with a function entry point (parameter `f`), a
single transaction (parameter `t`) and a sole contract initializer
(parameter `c`) all present, the initializer's list is selected; with
the contract absent, the transaction's list is selected over the
function's. -/
theorem c9_selection_last_wins_witness :
    selectParameterList
      (⟨some ⟨some ⟨some [⟨"f", ()⟩]⟩⟩, [⟨some ⟨some [⟨"t", ()⟩]⟩, none⟩],
        some ⟨[⟨⟨some ⟨some [⟨"c", ()⟩]⟩⟩⟩]⟩⟩ : Program Unit) = some [⟨"c", ()⟩]
    ∧ selectParameterList
      (⟨some ⟨some ⟨some [⟨"f", ()⟩]⟩⟩, [⟨some ⟨some [⟨"t", ()⟩]⟩, none⟩], none⟩ :
        Program Unit) = some [⟨"t", ()⟩] := by
  constructor
  · exact (c9_selection_last_wins _).1 ⟨[⟨⟨some ⟨some [⟨"c", ()⟩]⟩⟩⟩]⟩
      ⟨⟨some ⟨some [⟨"c", ()⟩]⟩⟩⟩ ⟨some [⟨"c", ()⟩]⟩ rfl rfl rfl
  · exact (c9_selection_last_wins _).2 rfl ⟨some ⟨some [⟨"t", ()⟩]⟩, none⟩
      ⟨some [⟨"t", ()⟩]⟩ rfl rfl

/-- C1 counterexample: for a source file with no entry point at all
(no function entry-point declaration, no transaction declaration, no
contract declaration) and the non-empty raw-argument list `["x"]`, the
claim demands an `ArgumentCountMismatch` failure, but
`ParseArgumentsWithoutType` returns the empty typed-value list with no
error: the `parameterList == nil` early return fires before the arity
check is ever reached. -/
theorem c1_counterexample :
    ParseArgumentsWithoutType (⟨none, [], none⟩ : Program Unit)
        (fun _ => SemaType.address) (fun _ _ => (Except.ok () : Except String Unit))
        ["x"] = Except.ok []
    ∧ (["x"] : List String) ≠ []
    ∧ ∀ e : ArgError,
        ParseArgumentsWithoutType (⟨none, [], none⟩ : Program Unit)
          (fun _ => SemaType.address) (fun _ _ => (Except.ok () : Except String Unit))
          ["x"] ≠ Except.error e := by
  refine ⟨rfl, by decide, ?_⟩
  intro e h
  simp [ParseArgumentsWithoutType, selectParameterList] at h

/-- C1 amended: for every source file in which the engine finds no entry
point (no function entry-point declaration, no single transaction
declaration with a top-level parameter list, and no sole contract
declaration with exactly one initializer), `ParseArgumentsWithoutType`
returns the empty typed-value list with no error for EVERY raw-argument
list, empty or not — the arity check is skipped, so a non-empty input
never produces an `ArgumentCountMismatch` here. -/
theorem c1_no_entry_point_amended {τ V : Type} (program : Program τ)
    (convertType : τ → SemaType)
    (parseLiteral : String → SemaType → Except String V)
    (h1 : program.functionEntryPointDeclaration = none)
    (h2 : ∀ td, program.transactionDeclarations = [td] → td.parameterList = none)
    (h3 : ∀ cd, program.soleContractDeclaration = some cd →
      ∀ ini, cd.initializers ≠ [ini])
    (args : List String) :
    ParseArgumentsWithoutType program convertType parseLiteral args = Except.ok [] := by
  have hsel : selectParameterList program = none := by
    rcases htd : program.transactionDeclarations with _ | ⟨td, _ | ⟨td2, rest⟩⟩ <;>
    rcases hcd : program.soleContractDeclaration with _ | cd
    · simp [selectParameterList, h1, htd, hcd]
    · rcases hini : cd.initializers with _ | ⟨ini, _ | ⟨ini2, irest⟩⟩
      · simp [selectParameterList, h1, htd, hcd, hini]
      · exact absurd hini (h3 cd hcd ini)
      · simp [selectParameterList, h1, htd, hcd, hini]
    · simp [selectParameterList, h1, htd, h2 td htd, hcd]
    · rcases hini : cd.initializers with _ | ⟨ini, _ | ⟨ini2, irest⟩⟩
      · simp [selectParameterList, h1, htd, h2 td htd, hcd, hini]
      · exact absurd hini (h3 cd hcd ini)
      · simp [selectParameterList, h1, htd, h2 td htd, hcd, hini]
    · simp [selectParameterList, h1, htd, hcd]
    · rcases hini : cd.initializers with _ | ⟨ini, _ | ⟨ini2, irest⟩⟩
      · simp [selectParameterList, h1, htd, hcd, hini]
      · exact absurd hini (h3 cd hcd ini)
      · simp [selectParameterList, h1, htd, hcd, hini]
  simp [ParseArgumentsWithoutType, hsel]

/-- Witness for the amended C1: a program containing only an
entry-point-free transaction pair returns the empty result on the
non-empty input `["a", "b"]`. -/
theorem c1_no_entry_point_amended_witness :
    ParseArgumentsWithoutType
        (⟨none, [⟨none, none⟩, ⟨none, none⟩], none⟩ : Program Unit)
        (fun _ => SemaType.address) (fun _ _ => (Except.ok () : Except String Unit))
        ["a", "b"] = Except.ok [] := by
  exact c1_no_entry_point_amended _ _ _ rfl (fun td h => by simp at h)
    (fun cd h => by simp at h) ["a", "b"]

/-- When every (parameter, string) pair coerces successfully, the loop
returns the positionally aligned list of coerced values. -/
theorem coerceLoop_ok_of_forall {τ V : Type} (ct : τ → SemaType)
    (pl : String → SemaType → Except String V) :
    ∀ (ps : List (Parameter τ)) (strs : List String),
    ps.length = strs.length →
    (∀ i (hp : i < ps.length) (ha : i < strs.length),
      ∃ v, coerceOneE ct pl ps[i] strs[i] = Except.ok v) →
    ∃ vs, coerceLoop ct pl ps strs = Except.ok vs ∧ vs.length = ps.length ∧
      ∀ i (hp : i < ps.length) (ha : i < strs.length) (hv : i < vs.length),
        coerceOneE ct pl ps[i] strs[i] = Except.ok vs[i] := by
  intro ps
  induction ps with
  | nil =>
      intro strs _ _
      exact ⟨[], by cases strs <;> simp [coerceLoop], rfl, fun i hp => absurd hp (by simp)⟩
  | cons p ps' ih =>
      intro strs hlen hall
      cases strs with
      | nil => simp at hlen
      | cons s strs' =>
          obtain ⟨v, hv⟩ := hall 0 (by simp) (by simp)
          simp only [List.getElem_cons_zero] at hv
          obtain ⟨vs', hloop, hlen', hpos⟩ :=
            ih strs' (by simpa using hlen)
              (fun i hp ha => by
                simpa using hall (i + 1) (by simpa using Nat.succ_lt_succ hp)
                  (by simpa using Nat.succ_lt_succ ha))
          refine ⟨v :: vs', by simp [coerceLoop, hv, hloop], by simp [hlen'], ?_⟩
          intro i hp ha hv'
          cases i with
          | zero => simpa using hv
          | succ i =>
              simpa using hpos i (by simpa using hp) (by simpa using ha)
                (by simpa using hv')

/-- C2: with a selected schema of length `k`, an input list of the same
length yields (when each pairwise coercion succeeds) a typed-value list
of length `k` whose `i`-th element is the coercion of the `i`-th input
against the `i`-th schema entry; an input list of any other length `n`
fails immediately with `ArgumentCountMismatch` reporting `got = n`,
`want = k`, returning no partial result (the error carries no values). -/
theorem c2_arity_and_alignment {τ V : Type} (program : Program τ)
    (ct : τ → SemaType) (pl : String → SemaType → Except String V)
    (params : List (Parameter τ)) (args : List String)
    (hsel : selectParameterList program = some params) :
    (args.length ≠ params.length →
      ParseArgumentsWithoutType program ct pl args =
        Except.error (.countMismatch args.length params.length))
    ∧ (args.length = params.length →
      (∀ i (hp : i < params.length) (ha : i < args.length),
        ∃ v, coerceOneE ct pl params[i] args[i] = Except.ok v) →
      ∃ vs, ParseArgumentsWithoutType program ct pl args = Except.ok vs ∧
        vs.length = params.length ∧
        ∀ i (hp : i < params.length) (ha : i < args.length) (hv : i < vs.length),
          coerceOneE ct pl params[i] args[i] = Except.ok vs[i]) := by
  constructor
  · intro hne
    have hne' : params.length ≠ args.length := fun h => hne h.symm
    simp [ParseArgumentsWithoutType, hsel, hne']
  · intro hlen hall
    obtain ⟨vs, hloop, hl, hpos⟩ := coerceLoop_ok_of_forall ct pl params args hlen.symm hall
    exact ⟨vs, by simp [ParseArgumentsWithoutType, hsel, hlen, hloop], hl, hpos⟩

/-- Witness for C2: a transaction schema with the single address
parameter `x` coerces the aligned input `["1234"]` to the one-element
list holding the parser's result for `"0x1234"` (the parser here
records the string it receives). -/
theorem c2_arity_and_alignment_witness :
    ∃ vs, ParseArgumentsWithoutType
        (⟨none, [⟨some ⟨some [⟨"x", SemaType.address⟩]⟩, none⟩], none⟩ : Program SemaType)
        (fun t => t) (fun str _ => (Except.ok str : Except String String)) ["1234"] =
          Except.ok vs ∧
      vs.length = 1 ∧ vs = ["0x1234"] := by
  obtain ⟨vs, hrun, hlen, hpos⟩ :=
    (c2_arity_and_alignment
      (⟨none, [⟨some ⟨some [⟨"x", SemaType.address⟩]⟩, none⟩], none⟩ : Program SemaType)
      (fun t => t) (fun str _ => (Except.ok str : Except String String))
      [⟨"x", SemaType.address⟩] ["1234"] rfl).2 rfl
      (fun i hp ha => by
        match i, hp with
        | 0, _ => exact ⟨"0x1234", rfl⟩)
  have hcomp : ParseArgumentsWithoutType
      (⟨none, [⟨some ⟨some [⟨"x", SemaType.address⟩]⟩, none⟩], none⟩ : Program SemaType)
      (fun t => t) (fun str _ => (Except.ok str : Except String String)) ["1234"] =
        Except.ok ["0x1234"] := rfl
  have hvs : vs = ["0x1234"] := by
    have h := hrun.symm.trans hcomp
    exact (Except.ok.inj h)
  exact ⟨vs, hrun, by simp [hvs], hvs⟩

/-- If the first `i` pairs coerce successfully and the `i`-th fails
with error `e`, the loop aborts with exactly `e`. -/
theorem coerceLoop_error_at {τ V : Type} (ct : τ → SemaType)
    (pl : String → SemaType → Except String V) :
    ∀ (i : Nat) (ps : List (Parameter τ)) (strs : List String)
      (hp : i < ps.length) (ha : i < strs.length),
    (∀ j, j < i → ∀ (hjp : j < ps.length) (hja : j < strs.length),
      ∃ v, coerceOneE ct pl ps[j] strs[j] = Except.ok v) →
    ∀ e, coerceOneE ct pl ps[i] strs[i] = Except.error e →
    coerceLoop ct pl ps strs = Except.error e := by
  intro i
  induction i with
  | zero =>
      intro ps strs hp ha _ e hfail
      cases ps with
      | nil => simp at hp
      | cons p ps' =>
          cases strs with
          | nil => simp at ha
          | cons s strs' =>
              simp only [List.getElem_cons_zero] at hfail
              simp [coerceLoop, hfail]
  | succ i ih =>
      intro ps strs hp ha hprev e hfail
      cases ps with
      | nil => simp at hp
      | cons p ps' =>
          cases strs with
          | nil => simp at ha
          | cons s strs' =>
              obtain ⟨v, hv⟩ := hprev 0 (Nat.succ_pos i) (by simp) (by simp)
              simp only [List.getElem_cons_zero] at hv
              have hrec := ih ps' strs' (by simpa using hp) (by simpa using ha)
                (fun j hj hjp hja => by
                  simpa using hprev (j + 1) (by omega)
                    (by simpa using Nat.succ_lt_succ hjp)
                    (by simpa using Nat.succ_lt_succ hja))
                e (by simpa using hfail)
              simp [coerceLoop, hv, hrec]

/-- C7: when the external literal parser rejects the (possibly
rewritten) string of the first failing parameter, the whole call fails
with `ArgumentTypeMismatch` built only from that parameter's identifier
and the expected (leaf) type's qualified name — the parser's raw error
text `msg` is universally quantified and absent from the result — and
no partial argument list is returned (the error constructor carries no
values). -/
theorem c7_parser_failure_uniform_error {τ V : Type} (program : Program τ)
    (ct : τ → SemaType) (pl : String → SemaType → Except String V)
    (params : List (Parameter τ)) (args : List String) (i : Nat)
    (hsel : selectParameterList program = some params)
    (hlen : args.length = params.length)
    (hp : i < params.length) (ha : i < args.length)
    (hprev : ∀ j, j < i → ∀ (hjp : j < params.length) (hja : j < args.length),
      ∃ v, coerceOneE ct pl params[j] args[j] = Except.ok v)
    (msg : String)
    (hfail : pl (rewriteArg (resolveLeaf (ct params[i].typeAnn)) args[i])
        (resolveLeaf (ct params[i].typeAnn)) = Except.error msg) :
    ParseArgumentsWithoutType program ct pl args =
      Except.error (.typeMismatch params[i].identifier
        (resolveLeaf (ct params[i].typeAnn)).qualifiedString) := by
  have hone : coerceOneE ct pl params[i] args[i] =
      Except.error (.typeMismatch params[i].identifier
        (resolveLeaf (ct params[i].typeAnn)).qualifiedString) := by
    simp [coerceOneE, hfail]
  have hloop := coerceLoop_error_at ct pl i params args hp ha hprev _ hone
  simp [ParseArgumentsWithoutType, hsel, hlen, hloop]

/-- Witness for C7: a parser that always fails with some raw error text
makes the call on the address parameter `amount` fail with exactly
`ArgumentTypeMismatch "amount" "Address"` and nothing else. -/
theorem c7_parser_failure_uniform_error_witness :
    ParseArgumentsWithoutType
        (⟨none, [⟨some ⟨some [⟨"amount", SemaType.address⟩]⟩, none⟩], none⟩ :
          Program SemaType)
        (fun t => t) (fun _ _ => (Except.error "raw cadence parser text" :
          Except String Unit)) ["zz"] =
      Except.error (.typeMismatch "amount" "Address") := by
  exact c7_parser_failure_uniform_error
    (⟨none, [⟨some ⟨some [⟨"amount", SemaType.address⟩]⟩, none⟩], none⟩ : Program SemaType)
    (fun t => t) (fun _ _ => Except.error "raw cadence parser text")
    [⟨"amount", SemaType.address⟩] ["zz"] 0 rfl rfl (by decide) (by decide)
    (fun j hj _ _ => absurd hj (by omega)) "raw cadence parser text" rfl

/-- The scenario configuration of C4: `KittyItemsMarket` declared in
complex form with one `testnet` alias. -/
def kittyMarketRaw : List (String × JsonContract) :=
  [("KittyItemsMarket",
    .advanced "./cadence/kittyItemsMarket/contracts/KittyItemsMarket.cdc"
      [("testnet", "0x123123123")])]

/-- C4: on the decoded scenario configuration,
`ByNameAndNetwork("KittyItemsMarket", "testnet")` returns the record
whose location is the declared source path and whose alias is
`"0x123123123"`; for the same name on any network that carries no
record, the lookup fails with `NotFound`. -/
theorem c4_by_name_and_network :
    byNameAndNetwork (decode kittyMarketRaw) "KittyItemsMarket" "testnet" =
      Except.ok ⟨"KittyItemsMarket",
        "./cadence/kittyItemsMarket/contracts/KittyItemsMarket.cdc",
        "testnet", "0x123123123"⟩
    ∧ ∀ nw, nw ≠ "testnet" →
      byNameAndNetwork (decode kittyMarketRaw) "KittyItemsMarket" nw =
        Except.error .notFound := by
  constructor
  · rfl
  · intro nw h
    have hne : ¬ (("testnet" : String) = nw) := fun hh => h hh.symm
    simp [byNameAndNetwork, decode, decodeEntry, kittyMarketRaw, List.find?, hne]

/-- Witness for C4: the `emulator` network carries no record for
`KittyItemsMarket` in the scenario configuration, so the composite
lookup fails with `NotFound` there. -/
theorem c4_by_name_and_network_witness :
    byNameAndNetwork (decode kittyMarketRaw) "KittyItemsMarket" "emulator" =
      Except.error .notFound :=
  c4_by_name_and_network.2 "emulator" (by decide)

/-- When no record of a group has an empty alias, the encoded `aliases`
object lists every record's `(network, alias)` pair in order. -/
theorem aliasEntries_of_nonempty (g : List Contract)
    (h : ∀ c ∈ g, ¬ (c.Alias = "")) :
    aliasEntries g = g.map (fun c => (c.Network, c.Alias)) := by
  induction g with
  | nil => rfl
  | cons r rest ih =>
      have hr := h r (by simp)
      simp [aliasEntries, hr]
      simpa [aliasEntries] using ih (fun c hc => h c (by simp [hc]))

/-- Per-group round trip: a non-empty name group whose records all carry
the group name, share one location, and (when alias-free) are sole
default-network records, encodes without error and decodes back to
exactly itself. -/
theorem encodeGroup_decode (n : String) (g : List Contract) (hne : g ≠ [])
    (hname : ∀ c ∈ g, c.Name = n)
    (hloc : ∀ c₁ ∈ g, ∀ c₂ ∈ g, c₁.Location = c₂.Location)
    (hsole : ∀ c ∈ g, c.Alias = "" → c.Network = defaultNetwork ∧ g = [c]) :
    ∃ jc, encodeGroup n g = Except.ok (n, jc) ∧ decodeEntry n jc = g := by
  cases g with
  | nil => exact absurd rfl hne
  | cons r rest =>
      by_cases hbare :
          (rest.isEmpty && (decide (r.Network = defaultNetwork)) &&
            (decide (r.Alias = ""))) = true
      · have h' : (rest = [] ∧ r.Network = defaultNetwork) ∧ r.Alias = "" := by
          simpa using hbare
        obtain ⟨⟨hrest, hnet⟩, hal⟩ := h'
        refine ⟨.simple r.Location, ?_, ?_⟩
        · simp [encodeGroup, hrest, hnet, hal]
        · have hn := hname r (by simp)
          subst hrest
          show [(⟨n, r.Location, defaultNetwork, ""⟩ : Contract)] = [r]
          rw [← hn, ← hnet, ← hal]
      · have hall : rest.all (fun c => c.Location = r.Location) = true := by
          simp only [List.all_eq_true]
          intro c hc
          simpa using hloc c (by simp [hc]) r (by simp)
        have hnonempty : ∀ c ∈ r :: rest, ¬ (c.Alias = "") := by
          intro c hc hal
          obtain ⟨hnet, hg⟩ := hsole c hc hal
          injection hg with h1 h2
          subst h1
          subst h2
          exact hbare (by simp [hnet, hal])
        have hmap : ∀ c ∈ r :: rest,
            ((fun a : String × String => (⟨n, r.Location, a.1, a.2⟩ : Contract)) ∘
              (fun c => (c.Network, c.Alias))) c = id c := by
          intro c hc
          have h1 := hname c hc
          have h2 := hloc c hc r (by simp)
          show (⟨n, r.Location, c.Network, c.Alias⟩ : Contract) = c
          rw [← h1, ← h2]
        refine ⟨.advanced r.Location (aliasEntries (r :: rest)), ?_, ?_⟩
        · simp only [encodeGroup]
          rw [if_neg (by simpa using hbare), if_pos hall]
        · rw [aliasEntries_of_nonempty _ hnonempty]
          show ((r :: rest).map (fun c => (c.Network, c.Alias))).map
              (fun a => (⟨n, r.Location, a.1, a.2⟩ : Contract)) = r :: rest
          rw [List.map_map]
          exact (List.map_congr_left hmap).trans (List.map_id _)

/-- Grouped encoding round trip: if every record's name is covered by
the name list, same-name records share a location, and every alias-free
record is the sole record of its name on the default network, encoding
succeeds and decoding the result is a permutation of the input. -/
theorem encodeNames_roundtrip (ns : List String) :
    ∀ (C : List Contract),
    (∀ c ∈ C, c.Name ∈ ns) →
    (∀ c₁ ∈ C, ∀ c₂ ∈ C, c₁.Name = c₂.Name → c₁.Location = c₂.Location) →
    (∀ c ∈ C, c.Alias = "" → c.Network = defaultNetwork ∧
      C.filter (fun x => x.Name = c.Name) = [c]) →
    ∃ raw, encodeNames ns C = Except.ok raw ∧ (decode raw).Perm C := by
  induction ns with
  | nil =>
      intro C hcov _ _
      have hC : C = [] := by
        cases C with
        | nil => rfl
        | cons c t => exact absurd (hcov c (by simp)) (by simp)
      subst hC
      exact ⟨[], rfl, by simp [decode]⟩
  | cons n ns ih =>
      intro C hcov hloc halias
      cases hg : C.filter (fun c => c.Name = n) with
      | nil =>
          have hcov' : ∀ c ∈ C, c.Name ∈ ns := by
            intro c hc
            rcases (by simpa using hcov c hc : c.Name = n ∨ c.Name ∈ ns) with h | h
            · have hmem : c ∈ C.filter (fun c => c.Name = n) :=
                List.mem_filter.mpr ⟨hc, by simp [h]⟩
              rw [hg] at hmem
              simp at hmem
            · exact h
          obtain ⟨raw, hok, hperm⟩ := ih C hcov' hloc halias
          exact ⟨raw, by simp [encodeNames, hg, hok], hperm⟩
      | cons r rest =>
          have hgsub : ∀ c ∈ r :: rest, c ∈ C ∧ c.Name = n := by
            intro c hc
            rw [← hg] at hc
            have := List.mem_filter.mp hc
            exact ⟨this.1, by simpa using this.2⟩
          obtain ⟨jc, hgok, hgdec⟩ :=
            encodeGroup_decode n (r :: rest) (by simp)
              (fun c hc => (hgsub c hc).2)
              (fun c₁ h₁ c₂ h₂ =>
                hloc c₁ (hgsub c₁ h₁).1 c₂ (hgsub c₂ h₂).1
                  ((hgsub c₁ h₁).2.trans (hgsub c₂ h₂).2.symm))
              (fun c hc hal => by
                obtain ⟨hnet, hfc⟩ := halias c (hgsub c hc).1 hal
                refine ⟨hnet, ?_⟩
                rw [← hg]
                rw [← hfc]
                exact List.filter_congr (fun x _ => by
                  simp [(hgsub c hc).2]))
          have hcov' : ∀ c ∈ C.filter (fun c => !(c.Name = n)), c.Name ∈ ns := by
            intro c hc
            have hm := List.mem_filter.mp hc
            have hne : ¬ (c.Name = n) := by simpa using hm.2
            rcases (by simpa using hcov c hm.1 : c.Name = n ∨ c.Name ∈ ns) with h | h
            · exact absurd h hne
            · exact h
          have hloc' : ∀ c₁ ∈ C.filter (fun c => !(c.Name = n)),
              ∀ c₂ ∈ C.filter (fun c => !(c.Name = n)),
              c₁.Name = c₂.Name → c₁.Location = c₂.Location := by
            intro c₁ h₁ c₂ h₂ hn
            exact hloc c₁ (List.mem_filter.mp h₁).1 c₂ (List.mem_filter.mp h₂).1 hn
          have halias' : ∀ c ∈ C.filter (fun c => !(c.Name = n)), c.Alias = "" →
              c.Network = defaultNetwork ∧
              (C.filter (fun c => !(c.Name = n))).filter
                (fun x => x.Name = c.Name) = [c] := by
            intro c hc hal
            have hm := List.mem_filter.mp hc
            have hne : ¬ (c.Name = n) := by simpa using hm.2
            obtain ⟨hnet, hfc⟩ := halias c hm.1 hal
            refine ⟨hnet, ?_⟩
            rw [List.filter_filter]
            rw [← hfc]
            refine List.filter_congr (fun x _ => ?_)
            by_cases hx : x.Name = c.Name
            · simp [hx, hne]
            · simp [hx]
          obtain ⟨raw', hok', hperm'⟩ :=
            ih (C.filter (fun c => !(c.Name = n))) hcov' hloc' halias'
          refine ⟨(n, jc) :: raw', ?_, ?_⟩
          · simp [encodeNames, hg, hgok, hok']
          · show (decodeEntry n jc ++ decode raw').Perm C
            rw [hgdec]
            refine ((hperm'.append_left (r :: rest)).trans ?_)
            rw [← hg]
            exact List.filter_append_perm (fun c => c.Name = n) C

/-- Unfolding of `encodeNames` at a cons name whose group is empty. -/
theorem encodeNames_cons_of_filter_nil (n : String) (ns : List String)
    (C : List Contract) (hg : C.filter (fun c => c.Name = n) = []) :
    encodeNames (n :: ns) C = encodeNames ns C := by
  show (match C.filter (fun c => c.Name = n) with
    | [] => encodeNames ns C
    | r :: rest =>
        match encodeGroup n (r :: rest) with
        | .error e => .error e
        | .ok entry =>
            match encodeNames ns (C.filter (fun c => !(c.Name = n))) with
            | .error e => .error e
            | .ok raws => .ok (entry :: raws)) = encodeNames ns C
  rw [hg]

/-- Unfolding of `encodeNames` at a cons name with a non-empty group. -/
theorem encodeNames_cons_of_filter (n : String) (ns : List String)
    (C : List Contract) (r : Contract) (rest : List Contract)
    (hg : C.filter (fun c => c.Name = n) = r :: rest) :
    encodeNames (n :: ns) C =
      match encodeGroup n (r :: rest) with
      | .error e => .error e
      | .ok entry =>
          match encodeNames ns (C.filter (fun c => !(c.Name = n))) with
          | .error e => .error e
          | .ok raws => .ok (entry :: raws) := by
  show (match C.filter (fun c => c.Name = n) with
    | [] => encodeNames ns C
    | r :: rest =>
        match encodeGroup n (r :: rest) with
        | .error e => .error e
        | .ok entry =>
            match encodeNames ns (C.filter (fun c => !(c.Name = n))) with
            | .error e => .error e
            | .ok raws => .ok (entry :: raws)) = _
  rw [hg]

/-- If grouped encoding fails, two records of one name disagree on the
location. -/
theorem encodeNames_error_pair (ns : List String) :
    ∀ (C : List Contract) (e : EncodeError), encodeNames ns C = Except.error e →
    ∃ c₁ ∈ C, ∃ c₂ ∈ C, c₁.Name = c₂.Name ∧ ¬ (c₁.Location = c₂.Location) := by
  induction ns with
  | nil =>
      intro C e h
      simp [encodeNames] at h
  | cons n ns ih =>
      intro C e h
      cases hg : C.filter (fun c => c.Name = n) with
      | nil =>
          rw [encodeNames_cons_of_filter_nil n ns C hg] at h
          exact ih C e h
      | cons r rest =>
          rw [encodeNames_cons_of_filter n ns C r rest hg] at h
          have hrC : r ∈ C ∧ r.Name = n := by
            have : r ∈ C.filter (fun c => c.Name = n) := by simp [hg]
            have hm := List.mem_filter.mp this
            exact ⟨hm.1, by simpa using hm.2⟩
          cases hgr : encodeGroup n (r :: rest) with
          | error e' =>
              simp only [encodeGroup] at hgr
              split_ifs at hgr with hb ha
              obtain ⟨c, hcrest, hcl⟩ : ∃ x ∈ rest, ¬ (x.Location = r.Location) := by
                simpa using ha
              have hcC : c ∈ C ∧ c.Name = n := by
                have : c ∈ C.filter (fun x => x.Name = n) := by simp [hg, hcrest]
                have hm := List.mem_filter.mp this
                exact ⟨hm.1, by simpa using hm.2⟩
              exact ⟨r, hrC.1, c, hcC.1, hrC.2.trans hcC.2.symm,
                fun hl => hcl hl.symm⟩
          | ok entry =>
              rw [hgr] at h
              cases hok : encodeNames ns (C.filter (fun c => !(c.Name = n))) with
              | error e'' =>
                  obtain ⟨c₁, h₁, c₂, h₂, hn, hl⟩ := ih _ e'' hok
                  exact ⟨c₁, (List.mem_filter.mp h₁).1, c₂,
                    (List.mem_filter.mp h₂).1, hn, hl⟩
              | ok raws =>
                  rw [hok] at h
                  simp at h

/-- If grouped encoding succeeds and the name list covers the records,
same-name records share one location. -/
theorem encodeNames_ok_pair (ns : List String) :
    ∀ (C : List Contract) (raw : List (String × JsonContract)),
    (∀ c ∈ C, c.Name ∈ ns) →
    encodeNames ns C = Except.ok raw →
    ∀ c₁ ∈ C, ∀ c₂ ∈ C, c₁.Name = c₂.Name → c₁.Location = c₂.Location := by
  induction ns with
  | nil =>
      intro C raw hcov _ c₁ h₁ _ _ _
      cases C with
      | nil => simp at h₁
      | cons c t => exact absurd (hcov c (by simp)) (by simp)
  | cons n ns ih =>
      intro C raw hcov h c₁ h₁ c₂ h₂ hn
      cases hg : C.filter (fun c => c.Name = n) with
      | nil =>
          rw [encodeNames_cons_of_filter_nil n ns C hg] at h
          refine ih C raw ?_ h c₁ h₁ c₂ h₂ hn
          intro c hc
          rcases (by simpa using hcov c hc : c.Name = n ∨ c.Name ∈ ns) with hcn | hcn
          · have hmem : c ∈ C.filter (fun c => c.Name = n) :=
              List.mem_filter.mpr ⟨hc, by simp [hcn]⟩
            rw [hg] at hmem
            simp at hmem
          · exact hcn
      | cons r rest =>
          rw [encodeNames_cons_of_filter n ns C r rest hg] at h
          cases hgr : encodeGroup n (r :: rest) with
          | error e =>
              rw [hgr] at h
              simp at h
          | ok entry =>
              rw [hgr] at h
              cases hok : encodeNames ns (C.filter (fun c => !(c.Name = n))) with
              | error e =>
                  rw [hok] at h
                  simp at h
              | ok raws =>
                  have hgloc : ∀ c ∈ r :: rest, c.Location = r.Location := by
                    simp only [encodeGroup] at hgr
                    split_ifs at hgr with hb ha
                    · have hrest : rest = [] := by
                        have h' : (rest = [] ∧ r.Network = defaultNetwork) ∧
                            r.Alias = "" := by simpa using hb
                        exact h'.1.1
                      intro c hc
                      rw [hrest] at hc
                      have : c = r := by simpa using hc
                      rw [this]
                    · intro c hc
                      rcases (by simpa using hc : c = r ∨ c ∈ rest) with hcr | hcr
                      · rw [hcr]
                      · simpa using List.all_eq_true.mp ha c hcr
                  by_cases hc1 : c₁.Name = n
                  · have hc2 : c₂.Name = n := by rw [← hn]; exact hc1
                    have m1 : c₁ ∈ r :: rest := by
                      rw [← hg]
                      exact List.mem_filter.mpr ⟨h₁, by simp [hc1]⟩
                    have m2 : c₂ ∈ r :: rest := by
                      rw [← hg]
                      exact List.mem_filter.mpr ⟨h₂, by simp [hc2]⟩
                    rw [hgloc c₁ m1, hgloc c₂ m2]
                  · have hc2 : ¬ (c₂.Name = n) := by rw [← hn]; exact hc1
                    refine ih (C.filter (fun c => !(c.Name = n))) raws ?_ hok
                      c₁ (List.mem_filter.mpr ⟨h₁, by simp [hc1]⟩)
                      c₂ (List.mem_filter.mpr ⟨h₂, by simp [hc2]⟩) hn
                    intro c hc
                    have hm := List.mem_filter.mp hc
                    have hne : ¬ (c.Name = n) := by simpa using hm.2
                    rcases (by simpa using hcov c hm.1 : c.Name = n ∨ c.Name ∈ ns)
                      with hcn | hcn
                    · exact absurd hcn hne
                    · exact hcn

/-- C3 counterexample: the one-record collection
`[{A, p, testnet, no-alias}]` satisfies the claim's hypothesis (all
same-name records trivially share the location `p`), yet
`Decode(Encode(C))` moves the record to the default network: encoding
produces `{source: p, aliases: {}}` (the empty alias is dropped) and
decoding that yields the `emulator` record, which is not a permutation
of the original — the round-trip law fails as stated. -/
theorem c3_counterexample :
    ([⟨"A", "p", "testnet", ""⟩] : List Contract).Pairwise
        (fun a b => a.Name = b.Name → a.Location = b.Location)
    ∧ encode [⟨"A", "p", "testnet", ""⟩] =
        Except.ok [("A", JsonContract.advanced "p" [])]
    ∧ decode [("A", JsonContract.advanced "p" [])] =
        [⟨"A", "p", "emulator", ""⟩]
    ∧ ¬ (decode [("A", JsonContract.advanced "p" [])]).Perm
        [⟨"A", "p", "testnet", ""⟩] := by
  refine ⟨by simp, rfl, rfl, ?_⟩
  intro hperm
  have hmem : (⟨"A", "p", "emulator", ""⟩ : Contract) ∈
      ([⟨"A", "p", "testnet", ""⟩] : List Contract) :=
    hperm.mem_iff.mp (by simp [decode, decodeEntry, defaultNetwork])
  simp [Contract.mk.injEq] at hmem

/-- C3 amended: `Decode(Encode(C))` is a permutation of `C` whenever all
records sharing a name share a location AND every record with an empty
alias is the only record of its name and sits on the default network
(the counterexample shows the second condition is necessary: an
empty-alias record on another network, or alongside further records of
the same name, is lost or re-networked by the alias-map encoding);
independently, `Encode` fails — with `InconsistentContractSource` and
no output — exactly when two records of one name carry different
locations. -/
theorem c3_round_trip_amended (C : List Contract) :
    ((∀ c₁ ∈ C, ∀ c₂ ∈ C, c₁.Name = c₂.Name → c₁.Location = c₂.Location) →
     (∀ c ∈ C, c.Alias = "" → c.Network = defaultNetwork ∧
        C.filter (fun x => x.Name = c.Name) = [c]) →
     ∃ raw, encode C = Except.ok raw ∧ (decode raw).Perm C)
    ∧ (encode C = Except.error .inconsistentContractSource ↔
      ∃ c₁ ∈ C, ∃ c₂ ∈ C, c₁.Name = c₂.Name ∧ ¬ (c₁.Location = c₂.Location)) := by
  constructor
  · intro hloc halias
    exact encodeNames_roundtrip (C.map fun c => c.Name) C
      (fun c hc => List.mem_map_of_mem _ hc) hloc halias
  · constructor
    · intro h
      have h' : encodeNames (C.map fun c => c.Name) C =
          Except.error .inconsistentContractSource := h
      exact encodeNames_error_pair (C.map fun c => c.Name) C _ h' 
    · rintro ⟨c₁, h₁, c₂, h₂, hn, hl⟩
      cases h : encode C with
      | ok raw =>
          have h' : encodeNames (C.map fun c => c.Name) C = Except.ok raw := h
          exact absurd (encodeNames_ok_pair (C.map fun c => c.Name) C raw
            (fun c hc => List.mem_map_of_mem _ hc) h' c₁ h₁ c₂ h₂ hn) hl
      | error e =>
          cases e
          rfl

/-- Witness for the amended C3: a two-record collection (a bare-style
default record and an aliased testnet record) encodes successfully and
decodes back to a permutation of itself. -/
theorem c3_round_trip_amended_witness :
    ∃ raw, encode [⟨"A", "p", "emulator", ""⟩, ⟨"B", "q", "testnet", "0x1"⟩] =
        Except.ok raw ∧
      (decode raw).Perm [⟨"A", "p", "emulator", ""⟩, ⟨"B", "q", "testnet", "0x1"⟩] :=
  (c3_round_trip_amended _).1 (by decide) (by decide)

end Flowkit
